import Mathlib

/-!
Verification of `src/hardened/scalarProd_hardened/scalarProd_kernel.cuh`.

The file embeds the two device kernels of that header:

* `scalarProdGPU` — the Dot-Product Engine.  It processes `vectorN` vector
  pairs of `elementN` floats.  For a vector `vec`, `ACCUM_N = 1024`
  accumulator lanes each compute a strided partial sum of products
  (`pos = vectorBase + lane, lane + 1024, ...`), the lanes are combined by a
  tree reduction with halving stride (`512, 256, ..., 1`), and thread `x = 0`
  of replica row `y` stores the result to `d_C[vec + 256*y]`.  After the
  loop, the single thread with `threadIdx.x == 0 && threadIdx.y == 0 &&
  blockIdx.x == 0` stores `d_C[0] = 1`.  The index `vectorBase` is computed
  with the 24-bit multiply `__mul24(elementN, vec)`.

* `check_correctness` — the TMR voter.  Thread `tid < size` compares
  `result[tid]`, `result[tid+size]`, `result[tid+size*2]` with float
  equality; if copy 0 and copy 1 differ it either reports a DUE (all three
  pairwise different) or stores `result[tid] = result[tid+size*2]`.

Floating-point values are embedded abstractly: the engine is parametric in a
carrier type `α` with uninterpreted `add`, `mul`, `zero`, `one` (`Ops α`),
so every theorem about summation is a statement about the exact operation
schedule of the kernel, which is what "bit-identical for a fixed reduction
order" means.  The voter is embedded over `FP`, a value domain with an
explicit non-signaling NaN whose float equality `feq` is irreflexive on NaN,
as IEEE-754 `==` is.  Machine index arithmetic that can overflow in the
source (`__mul24`) is modelled exactly via `Int.bmod`; the remaining index
arithmetic is `int` arithmetic well inside 32 bits for all inputs considered.
Buffers are total functions `ℤ → α` (an out-of-range device read returns an
arbitrary modelled value rather than faulting).
-/

variable {α : Type}

/-- Uninterpreted arithmetic on the scalar carrier: the embedding of the
float operations `+`, `*` and the literals `0` and `1` used by the kernel.
Keeping them abstract makes every proved equality an equality of operation
schedules. -/
structure Ops (α : Type) where
  add : α → α → α
  mul : α → α → α
  zero : α
  one : α

/-- Concrete instantiation used by witnesses and counterexamples. -/
def intOps : Ops ℤ := ⟨(· + ·), (· * ·), 0, 1⟩

/-- `#define ACCUM_N 1024` — the number of accumulator lanes. -/
def ACCUM_N : ℕ := 1024

/-- `#define IMUL(a, b) __mul24(a, b)`: the product of the sign-extended low
24 bits of each operand, truncated to a signed 32-bit result.  `Int.bmod x n`
is exactly the two's-complement reading of `x` modulo `n`. -/
def mul24 (a b : ℤ) : ℤ :=
  Int.bmod (Int.bmod a (2 ^ 24) * Int.bmod b (2 ^ 24)) (2 ^ 32)

/-- Trip count of the strided loop `for (pos = p0; pos < vEnd; pos += 1024)`. -/
def numIters (pos vEnd : ℤ) : ℕ := ((vEnd - pos).toNat + 1023) / 1024

/-- The body of the accumulation loop
`for (pos = ...; pos < vectorEnd; pos += ACCUM_N) sum += d_A[pos] * d_B[pos];`
run for a given trip count, accumulating left-to-right exactly as the
source's `sum += ...` does. -/
def accLoop (ops : Ops α) (A B : ℤ → α) : ℕ → ℤ → α → α
  | 0, _, sum => sum
  | n + 1, pos, sum => accLoop ops A B n (pos + 1024) (ops.add sum (ops.mul (A pos) (B pos)))

/-- Partial sum of accumulator lane `i` for the vector with bounds
`[vBase, vEnd)`: the value stored by `accumResult[iAccum + ...] = sum`. -/
def laneSum (ops : Ops α) (A B : ℤ → α) (vBase vEnd : ℤ) (i : ℕ) : α :=
  accLoop ops A B (numIters (vBase + i) vEnd) (vBase + i) ops.zero

/-- One tree-reduction round at a given stride, i.e. the accumulator row
after `accumResult[i] += accumResult[stride + i]` has run for every
`i < stride` (the reads are from the row at round start, which is exact:
within a round all writes go to lanes `< stride` while the cross-lane reads
are at `stride + i ≥ stride`, and the own-lane read happens before the
write). -/
def treeStep (add : α → α → α) (acc : ℕ → α) (stride : ℕ) : ℕ → α :=
  fun i => if i < stride then add (acc i) (acc (stride + i)) else acc i

/-- The stride sequence of `for (stride = ACCUM_N / 2; stride > 0; stride >>= 1)`. -/
def strideSeq : List ℕ := [512, 256, 128, 64, 32, 16, 8, 4, 2, 1]

/-- Generator of the halving stride sequence, with fuel. -/
def halvingFrom : ℕ → ℕ → List ℕ
  | 0, _ => []
  | f + 1, s => if s = 0 then [] else s :: halvingFrom f (s / 2)

/-- The full tree reduction: the accumulator row after all reduction rounds. -/
def treeReduce (add : α → α → α) (acc : ℕ → α) : ℕ → α :=
  strideSeq.foldl (treeStep add) acc

/-- The scalar the kernel computes for vector `vec`: contents of
`accumResult[0]` after the tree reduction, starting from the lane partial
sums over `[vectorBase, vectorBase + elementN)` with
`vectorBase = IMUL(elementN, vec)`. -/
def scalarProdResult (ops : Ops α) (A B : ℤ → α) (eN vec : ℤ) : α :=
  treeReduce ops.add (laneSum ops A B (mul24 eN vec) (mul24 eN vec + eN)) 0

/-- Modelled from the spec: the sequential reference dot product of vector
`vec` that uses the very same strided-then-tree summation order as the
kernel, but with exact index arithmetic, i.e. element `i` of vector `v` read
at linear offset `v*elementN + i`. -/
def referenceDot (ops : Ops α) (A B : ℤ → α) (eN vec : ℤ) : α :=
  treeReduce ops.add (laneSum ops A B (eN * vec) (eN * vec + eN)) 0

/-- A store to a lane of the (ℕ-indexed) shared accumulator row. -/
def upd (f : ℕ → α) (i : ℕ) (v : α) : ℕ → α := fun j => if j = i then v else f j

/-- The lanes visited by thread `t` of a block with `blockDim.x = T`:
`for (iAccum = t; iAccum < ACCUM_N; iAccum += T)`. -/
def threadLanes (t T : ℕ) : List ℕ := (List.range ACCUM_N).filter (fun i => i % T = t)

/-- Apply, for each lane of each per-thread lane list, the store of
`g lane`.  Each lane is owned by exactly one thread, so the store order is
immaterial; the list-of-lists shape mirrors the thread grid. -/
def updAll (g : ℕ → α) (ls : List (List ℕ)) (f : ℕ → α) : ℕ → α :=
  ls.foldl (fun f l => l.foldl (fun f i => upd f i (g i)) f) f

/-- The accumulator row after the phase-1 loops of all `T` threads of a
block have stored their lane partial sums, starting from the (uninitialized)
row `row`. -/
def runPhase1 (ops : Ops α) (A B : ℤ → α) (vBase vEnd : ℤ) (T : ℕ) (row : ℕ → α) : ℕ → α :=
  updAll (laneSum ops A B vBase vEnd) ((List.range T).map (fun t => threadLanes t T)) row

/-- One reduction round executed by `T` threads, thread `t` covering
`for (iAccum = t; iAccum < stride; iAccum += T)`; reads are from the row at
round start, which matches the machine because the `__syncthreads()` barrier
precedes the round and, within it, writes (lanes `< stride`) never alias the
cross-thread reads (lanes `≥ stride`). -/
def treeStepPar (add : α → α → α) (T : ℕ) (acc : ℕ → α) (stride : ℕ) : ℕ → α :=
  updAll (fun i => add (acc i) (acc (stride + i)))
    ((List.range T).map (fun t => (threadLanes t T).filter (fun i => i < stride))) acc

/-- The tree reduction as executed by `T` threads with barriers between
rounds. -/
def treeReducePar (add : α → α → α) (T : ℕ) (acc : ℕ → α) : ℕ → α :=
  strideSeq.foldl (treeStepPar add T) acc

/-- The scalar stored for vector `vec` by the replica row of a block with
`blockDim.x = T` whose shared accumulator row initially holds `row`. -/
def scalarProdResultPar (ops : Ops α) (T : ℕ) (A B : ℤ → α) (eN vec : ℤ) (row : ℕ → α) : α :=
  treeReducePar ops.add T (runPhase1 ops A B (mul24 eN vec) (mul24 eN vec + eN) T row) 0

/-- The vectors visited by `for (vec = b; vec < vN; vec += G)`, with fuel. -/
def blockVecsF (G : ℤ) : ℕ → ℤ → ℤ → List ℤ
  | 0, _, _ => []
  | f + 1, vN, b => if b < vN then b :: blockVecsF G f vN (b + G) else []

/-- The vectors processed by the block starting at `b` when `gridDim.x = G`:
`for (vec = blockIdx.x; vec < vectorN; vec += gridDim.x)`.  The fuel
`(vN - b).toNat` is exact for any stride `G ≥ 1`. -/
def blockVecs (G vN b : ℤ) : List ℤ := blockVecsF G (vN - b).toNat vN b

/-- All stores `d_C[vec + 256*threadIdx.y] = accumResult[...]` performed by
the grid, as `(slot, vec)` pairs: block `b < G` runs its vector loop and for
each `vec` the three replica rows `y = 0, 1, 2` store to slot `vec + 256*y`.
Distinct `(vec, y)` pairs of one block target distinct slots, and the list
order is the canonical block-major order. -/
def engineWriteList (G vN : ℤ) : List (ℤ × ℤ) :=
  (List.range G.toNat).flatMap (fun b =>
    (blockVecs G vN (b : ℤ)).flatMap (fun vec =>
      ([0, 1, 2] : List ℤ).map (fun y => (vec + 256 * y, vec))))

/-- A store to the global output buffer `d_C`. -/
def updZ (f : ℤ → α) (i : ℤ) (v : α) : ℤ → α := fun j => if j = i then v else f j

/-- Contents of `d_C` after one specific serialization of a run of
`scalarProdGPU` with `blockDim.x = T`, `gridDim.x = G`, inputs `A`, `B`,
arguments `vectorN = vN`, `elementN = eN`, initial shared-row contents `row`
and initial buffer contents `C0`: the replica stores in block-major order,
then the sentinel store `d_C[0] = 1`.  Two cautions.  The program itself
orders nothing between blocks, and when `vN > 256` distinct blocks can store
different values to the same slot, so this block-major serialization is just
one admissible outcome there; where all store targets are pairwise distinct
— every `vN ≤ 256` — the serialization order is immaterial (proved below as
`engine_foldl_perm`) and the model is exact.  Slot `0` is race-free for
every `vN`: its only replica store `(vec, y) = (0, 0)` is made by thread
`(0,0)` of block `0`, the very thread that later stores the sentinel, so the
sentinel is last in program order for that slot. -/
def engineRunPar (ops : Ops α) (T : ℕ) (G : ℤ) (A B : ℤ → α) (vN eN : ℤ)
    (row : ℕ → α) (C0 : ℤ → α) : ℤ → α :=
  updZ ((engineWriteList G vN).foldl
      (fun C w => updZ C w.1 (scalarProdResultPar ops T A B eN w.2 row)) C0)
    0 ops.one

/-- Contents of `d_C` after a run whose replica stores are applied in an
arbitrary serialization order `ws` (any permutation of `engineWriteList`
is an admissible inter-block interleaving of the grid's stores),
then the sentinel store.  Used to state determinism honestly: a racy run
is one program with many admissible `ws`. -/
def engineRunParOrd (ops : Ops α) (T : ℕ) (A B : ℤ → α) (eN : ℤ)
    (row : ℕ → α) (ws : List (ℤ × ℤ)) (C0 : ℤ → α) : ℤ → α :=
  updZ (ws.foldl
      (fun C w => updZ C w.1 (scalarProdResultPar ops T A B eN w.2 row)) C0)
    0 ops.one

/-- The guard `threadIdx.x == 0 && threadIdx.y == 0 && blockIdx.x == 0` of
the sentinel store `d_C[0] = 1`. -/
def sentinelCond (tx ty bx : ℕ) : Bool := tx == 0 && ty == 0 && bx == 0

/-- The voter's value domain: a finite float value or a NaN. -/
inductive FP where
  | nan : FP
  | fin : ℚ → FP
deriving DecidableEq

/-- IEEE-754 float equality `==`: a NaN compares unequal to everything,
including itself; finite values compare by value.  The source's `!=` is
`feq · · = false`. -/
def feq : FP → FP → Bool
  | FP.nan, _ => false
  | _, FP.nan => false
  | FP.fin a, FP.fin b => a == b

/-- The voter kernel `check_correctness(result, size)`: buffer contents after
every thread `tid ∈ [0, size)` has run
`if (result[tid] != result[tid+size]) { if (both also differ from
result[tid+size*2]) DUE else result[tid] = result[tid+size*2]; }`.
Threads are independent — each writes only its own slot `tid < size` and
reads slots `tid`, `tid+size`, `tid+size*2`, the latter two never written —
so the pointwise model is exact. -/
def check_correctness (result : ℤ → FP) (size : ℤ) : ℤ → FP :=
  fun tid =>
    if 0 ≤ tid ∧ tid < size then
      if feq (result tid) (result (tid + size)) = false then
        if feq (result tid) (result (tid + size * 2)) = false ∧
            feq (result (tid + size)) (result (tid + size * 2)) = false then
          result tid
        else
          result (tid + size * 2)
      else result tid
    else result tid

/-- Whether thread `tid` prints the `"DUE %f %f %f"` diagnostic: it is in
range and all three copies are pairwise unequal under float equality. -/
def isDUE (result : ℤ → FP) (size tid : ℤ) : Bool :=
  decide (0 ≤ tid) && decide (tid < size) &&
  !feq (result tid) (result (tid + size)) &&
  !feq (result tid) (result (tid + size * 2)) &&
  !feq (result (tid + size)) (result (tid + size * 2))

/-! ## Basic bridge lemmas -/

lemma ACCUM_N_eq : ACCUM_N = 1024 := rfl

/-- The stride sequence is exactly the halving loop from `ACCUM_N / 2`. -/
lemma strideSeq_eq : strideSeq = halvingFrom 10 (ACCUM_N / 2) := by decide

lemma numIters_eq_zero {pos vEnd : ℤ} (h : vEnd ≤ pos) : numIters pos vEnd = 0 := by
  unfold numIters; omega

lemma numIters_succ {pos vEnd : ℤ} (h : pos < vEnd) :
    numIters pos vEnd = numIters (pos + 1024) vEnd + 1 := by
  unfold numIters; omega

/-- The fuel-indexed accumulation loop satisfies the exit equation of the
source loop. -/
lemma accLoop_stop (ops : Ops α) (A B : ℤ → α) {pos vEnd : ℤ} (h : vEnd ≤ pos) (s : α) :
    accLoop ops A B (numIters pos vEnd) pos s = s := by
  rw [numIters_eq_zero h]; rfl

/-- The fuel-indexed accumulation loop satisfies the iteration equation of
the source loop. -/
lemma accLoop_step (ops : Ops α) (A B : ℤ → α) {pos vEnd : ℤ} (h : pos < vEnd) (s : α) :
    accLoop ops A B (numIters pos vEnd) pos s
      = accLoop ops A B (numIters (pos + 1024) vEnd) (pos + 1024)
          (ops.add s (ops.mul (A pos) (B pos))) := by
  rw [numIters_succ h]; rfl

/-! ## Voter claims -/

/-- C4: for every index `tid` in `[0, size)`, if `copy0[tid] == copy1[tid]`
(float equality), the voter leaves `copy0[tid]` unchanged, regardless of
`copy2[tid]`. -/
theorem voter_agreement_passthrough (result : ℤ → FP) (size tid : ℤ)
    (h0 : 0 ≤ tid) (h1 : tid < size)
    (hagree : feq (result tid) (result (tid + size)) = true) :
    check_correctness result size tid = result tid := by
  unfold check_correctness
  rw [if_pos ⟨h0, h1⟩, if_neg (by simp [hagree])]

theorem voter_agreement_passthrough_witness :
    check_correctness (fun j => if j = 2 then FP.fin 9 else FP.fin 4) 1 0
      = (fun j => if j = 2 then FP.fin 9 else FP.fin 4) 0 :=
  voter_agreement_passthrough _ 1 0 (by decide) (by decide) (by decide)

/-- C2: for every index `tid` in `[0, size)`, if `copy0[tid] != copy1[tid]`
and copy 2 agrees (under float equality) with copy 0 or with copy 1, the
voter overwrites `copy0[tid]` with the value of `copy2[tid]`. -/
theorem voter_majority_correction (result : ℤ → FP) (size tid : ℤ)
    (h0 : 0 ≤ tid) (h1 : tid < size)
    (hne : feq (result tid) (result (tid + size)) = false)
    (hmaj : feq (result tid) (result (tid + size * 2)) = true ∨
      feq (result (tid + size)) (result (tid + size * 2)) = true) :
    check_correctness result size tid = result (tid + size * 2) := by
  unfold check_correctness
  rw [if_pos ⟨h0, h1⟩, if_pos hne, if_neg]
  rcases hmaj with h | h <;> simp [h]

theorem voter_majority_correction_witness :
    check_correctness (fun j => if j = 1 then FP.fin 7 else FP.fin 5) 1 0
      = (fun j => if j = 1 then FP.fin 7 else FP.fin 5) (0 + 1 * 2) :=
  voter_majority_correction _ 1 0 (by decide) (by decide) (by decide)
    (Or.inl (by decide))

/-- C3: for every index `tid` in `[0, size)`: if the three copies are
pairwise unequal under float equality, the voter leaves `copy0[tid]`
unchanged; the DUE diagnostic is emitted at `tid` exactly when the three
copies are pairwise unequal; and the voter's action at `tid` depends only on
the three slots of index `tid`, so an undetermined index never affects the
processing of any other index. -/
theorem voter_double_upset_detection (result other : ℤ → FP) (size tid : ℤ)
    (h0 : 0 ≤ tid) (h1 : tid < size)
    (e0 : other tid = result tid)
    (e1 : other (tid + size) = result (tid + size))
    (e2 : other (tid + size * 2) = result (tid + size * 2)) :
    (feq (result tid) (result (tid + size)) = false →
      feq (result tid) (result (tid + size * 2)) = false →
      feq (result (tid + size)) (result (tid + size * 2)) = false →
      check_correctness result size tid = result tid) ∧
    (isDUE result size tid = true ↔
      (feq (result tid) (result (tid + size)) = false ∧
       feq (result tid) (result (tid + size * 2)) = false ∧
       feq (result (tid + size)) (result (tid + size * 2)) = false)) ∧
    check_correctness other size tid = check_correctness result size tid := by
  refine ⟨?_, ?_, ?_⟩
  · intro ha hb hc
    unfold check_correctness
    rw [if_pos ⟨h0, h1⟩, if_pos ha, if_pos ⟨hb, hc⟩]
  · unfold isDUE
    simp [h0, h1, Bool.and_eq_true, Bool.not_eq_true', and_assoc]
  · unfold check_correctness
    rw [e0, e1, e2]

theorem voter_double_upset_detection_witness :
    check_correctness (fun j => if j = 0 then FP.fin 1 else if j = 1 then FP.fin 2 else FP.fin 3) 1 0
      = (fun j => if j = 0 then FP.fin 1 else if j = 1 then FP.fin 2 else FP.fin 3) 0 ∧
    isDUE (fun j => if j = 0 then FP.fin 1 else if j = 1 then FP.fin 2 else FP.fin 3) 1 0 = true :=
  ⟨(voter_double_upset_detection
      (fun j => if j = 0 then FP.fin 1 else if j = 1 then FP.fin 2 else FP.fin 3)
      (fun j => if j = 0 then FP.fin 1 else if j = 1 then FP.fin 2 else FP.fin 3) 1 0
      (by decide) (by decide) rfl rfl rfl).1
      (by decide) (by decide) (by decide),
   (voter_double_upset_detection
      (fun j => if j = 0 then FP.fin 1 else if j = 1 then FP.fin 2 else FP.fin 3)
      (fun j => if j = 0 then FP.fin 1 else if j = 1 then FP.fin 2 else FP.fin 3) 1 0
      (by decide) (by decide) rfl rfl rfl).2.1.mpr
      ⟨by decide, by decide, by decide⟩⟩

/-- C8: the voter never writes outside `[0, size)` — every slot `j ≥ size`
(all of copy 1, copy 2 and beyond) is unchanged — and for `size = 0` it
changes no slot at all and emits no diagnostic. -/
theorem voter_frame (result : ℤ → FP) (size j k t : ℤ) (hj : size ≤ j) :
    check_correctness result size j = result j ∧
    check_correctness result 0 k = result k ∧
    isDUE result 0 t = false := by
  refine ⟨?_, ?_, ?_⟩
  · unfold check_correctness
    rw [if_neg (by omega)]
  · unfold check_correctness
    rw [if_neg (by omega)]
  · unfold isDUE
    have : ¬ (t < 0 ∧ 0 ≤ t) := by omega
    by_cases h : 0 ≤ t
    · simp [h, show ¬ t < 0 by omega]
    · simp [h]

theorem voter_frame_witness :
    check_correctness (fun _ => FP.fin 3) 2 7 = (fun _ => FP.fin 3) 7 ∧
    check_correctness (fun _ => FP.fin 3) 0 (-1) = (fun _ => FP.fin 3) (-1) ∧
    isDUE (fun _ => FP.fin 3) 0 0 = false :=
  voter_frame (fun _ => FP.fin 3) 2 7 (-1) 0 (by decide)

/-- C10: if the three copies at `tid` all hold the same bit-identical NaN,
the voter's float-equality tests all fail, so the index is reported as a DUE
and `copy0[tid]` is left unchanged even though the copies are identical:
agreement passthrough does not cover NaN results. -/
theorem voter_nan_undetermined (result : ℤ → FP) (size tid : ℤ)
    (h0 : 0 ≤ tid) (h1 : tid < size)
    (n0 : result tid = FP.nan) (n1 : result (tid + size) = FP.nan)
    (n2 : result (tid + size * 2) = FP.nan) :
    isDUE result size tid = true ∧ check_correctness result size tid = result tid := by
  constructor
  · unfold isDUE
    simp [h0, h1, n0, n1, n2, feq]
  · unfold check_correctness
    rw [if_pos ⟨h0, h1⟩, n0, n1, n2]
    simp [feq]

theorem voter_nan_undetermined_witness :
    isDUE (fun _ => FP.nan) 1 0 = true ∧
    check_correctness (fun _ => FP.nan) 1 0 = (fun _ => FP.nan) 0 :=
  voter_nan_undetermined (fun _ => FP.nan) 1 0 (by decide) (by decide) rfl rfl rfl

/-! ## Engine scheduling lemmas -/

lemma upd_eval (f : ℕ → α) (i : ℕ) (v : α) (j : ℕ) :
    upd f i v j = if j = i then v else f j := rfl

/-- A fold of per-lane stores evaluates to the stored value on stored lanes
and to the initial row elsewhere. -/
lemma updAll_single (g : ℕ → α) (l : List ℕ) (f : ℕ → α) (j : ℕ) :
    (l.foldl (fun f i => upd f i (g i)) f) j = if j ∈ l then g j else f j := by
  induction l generalizing f with
  | nil => simp
  | cons a t ih =>
      simp only [List.foldl_cons, ih, upd, List.mem_cons]
      by_cases h1 : j ∈ t
      · simp [h1]
      · by_cases h2 : j = a <;> simp [h1, h2]

lemma updAll_eval (g : ℕ → α) (ls : List (List ℕ)) (f : ℕ → α) (j : ℕ) :
    updAll g ls f j = if ∃ l ∈ ls, j ∈ l then g j else f j := by
  induction ls generalizing f with
  | nil => simp [updAll]
  | cons l t ih =>
      unfold updAll at ih ⊢
      simp only [List.foldl_cons]
      rw [ih, updAll_single]
      by_cases h1 : ∃ x ∈ t, j ∈ x
      · simp [h1]
      · by_cases h2 : j ∈ l <;> simp [h1, h2]

lemma threadLanes_mem {i t T : ℕ} : i ∈ threadLanes t T ↔ i < ACCUM_N ∧ i % T = t := by
  simp [threadLanes, List.mem_filter, List.mem_range]

/-- With at least one thread, phase 1 stores every lane's partial sum:
the row is the lane-sum row below `ACCUM_N` and the initial (uninitialized)
row above it. -/
lemma runPhase1_eval (ops : Ops α) (A B : ℤ → α) (vBase vEnd : ℤ) {T : ℕ} (hT : 1 ≤ T)
    (row : ℕ → α) (j : ℕ) :
    runPhase1 ops A B vBase vEnd T row j
      = if j < ACCUM_N then laneSum ops A B vBase vEnd j else row j := by
  unfold runPhase1
  rw [updAll_eval]
  have hcond : (∃ l ∈ (List.range T).map (fun t => threadLanes t T), j ∈ l) ↔ j < ACCUM_N := by
    constructor
    · rintro ⟨l, hl, hj⟩
      obtain ⟨t, -, rfl⟩ := List.mem_map.1 hl
      exact (threadLanes_mem.1 hj).1
    · intro hj
      exact ⟨threadLanes (j % T) T,
        List.mem_map_of_mem _ (List.mem_range.2 (Nat.mod_lt j (by omega))),
        threadLanes_mem.2 ⟨hj, rfl⟩⟩
  simp only [hcond]

/-- With at least one thread and a stride that does not exceed the row
width, the `T`-thread reduction round coincides with the functional round. -/
lemma treeStepPar_eval (add : α → α → α) {T : ℕ} (hT : 1 ≤ T) (acc : ℕ → α) {stride : ℕ}
    (hs : stride ≤ ACCUM_N) :
    treeStepPar add T acc stride = treeStep add acc stride := by
  funext j
  unfold treeStepPar treeStep
  rw [updAll_eval]
  have hcond :
      (∃ l ∈ (List.range T).map (fun t => (threadLanes t T).filter (fun i => i < stride)),
        j ∈ l) ↔ j < stride := by
    constructor
    · rintro ⟨l, hl, hj⟩
      obtain ⟨t, -, rfl⟩ := List.mem_map.1 hl
      have := (List.mem_filter.1 hj).2
      simpa using this
    · intro hj
      have hjA : j < ACCUM_N := by
        have := ACCUM_N_eq
        omega
      refine ⟨(threadLanes (j % T) T).filter (fun i => i < stride),
        List.mem_map_of_mem _ (List.mem_range.2 (Nat.mod_lt j (by omega))), ?_⟩
      exact List.mem_filter.2 ⟨threadLanes_mem.2 ⟨hjA, rfl⟩, by simpa using hj⟩
  simp only [hcond]

/-- Through any list of rounds with strides at most `ACCUM_N / 2`, the
`T`-thread reduction and the functional reduction agree on the whole row
`[0, ACCUM_N)`, starting from rows that agree there. -/
lemma foldl_tree_agree (add : α → α → α) {T : ℕ} (hT : 1 ≤ T) :
    ∀ (l : List ℕ), (∀ s ∈ l, s ≤ ACCUM_N / 2) →
      ∀ r1 r2 : ℕ → α, (∀ j, j < ACCUM_N → r1 j = r2 j) →
        ∀ j, j < ACCUM_N → l.foldl (treeStepPar add T) r1 j = l.foldl (treeStep add) r2 j := by
  intro l
  induction l with
  | nil => intro _ r1 r2 h j hj; simpa using h j hj
  | cons s t ih =>
      intro hs r1 r2 h j hj
      have hs0 : s ≤ ACCUM_N / 2 := hs s (List.mem_cons_self s t)
      have hsA : s ≤ ACCUM_N := by
        have := ACCUM_N_eq
        omega
      simp only [List.foldl_cons]
      rw [treeStepPar_eval add hT r1 hsA]
      refine ih (fun x hx => hs x (List.mem_cons_of_mem _ hx)) _ _ ?_ j hj
      intro i hi
      unfold treeStep
      by_cases hlt : i < s
      · have hsi : s + i < ACCUM_N := by
          have := ACCUM_N_eq
          omega
        rw [if_pos hlt, if_pos hlt, h i hi, h (s + i) hsi]
      · rw [if_neg hlt, if_neg hlt, h i hi]

/-- Schedule independence of the per-vector result: for any thread count
`T ≥ 1` and any initial contents of the shared accumulator row, the value a
replica row computes for vector `vec` equals the functional (sequential)
result. -/
lemma scalarProdResultPar_eq (ops : Ops α) {T : ℕ} (hT : 1 ≤ T) (A B : ℤ → α)
    (eN vec : ℤ) (row : ℕ → α) :
    scalarProdResultPar ops T A B eN vec row = scalarProdResult ops A B eN vec := by
  unfold scalarProdResultPar scalarProdResult treeReducePar treeReduce
  refine foldl_tree_agree ops.add hT strideSeq (by decide) _ _ ?_ 0 (by decide)
  intro j hj
  rw [runPhase1_eval ops A B _ _ hT row j, if_pos hj]

/-! ## Grid write-set lemmas -/

/-- Characterization of the vectors visited by the block loop, for any
stride `G ≥ 1` and sufficient fuel. -/
lemma blockVecsF_mem {G : ℤ} (hG : 1 ≤ G) {vN v : ℤ} :
    ∀ (f : ℕ) (b : ℤ), (vN - b).toNat ≤ f →
      (v ∈ blockVecsF G f vN b ↔ b ≤ v ∧ v < vN ∧ ∃ k : ℕ, v = b + G * k) := by
  intro f
  induction f with
  | zero =>
      intro b hb
      simp only [blockVecsF, List.not_mem_nil, false_iff]
      rintro ⟨h1, h2, -⟩
      omega
  | succ f ih =>
      intro b hb
      unfold blockVecsF
      by_cases hlt : b < vN
      · rw [if_pos hlt]
        have hfuel : (vN - (b + G)).toNat ≤ f := by omega
        rw [List.mem_cons, ih (b + G) hfuel]
        constructor
        · rintro (rfl | ⟨h1, h2, k, hk⟩)
          · exact ⟨le_refl _, hlt, 0, by simp⟩
          · exact ⟨by omega, h2, k + 1, by rw [hk]; push_cast; ring⟩
        · rintro ⟨h1, h2, k, hk⟩
          cases k with
          | zero =>
              left
              simpa using hk
          | succ k =>
              right
              have hGk : 0 ≤ G * (k : ℤ) := mul_nonneg (by omega) (by positivity)
              refine ⟨by rw [hk]; push_cast; nlinarith, h2, k, by rw [hk]; push_cast; ring⟩
      · rw [if_neg hlt]
        simp only [List.not_mem_nil, false_iff]
        rintro ⟨h1, h2, -⟩
        omega

lemma blockVecs_mem {G vN b v : ℤ} (hG : 1 ≤ G) :
    v ∈ blockVecs G vN b ↔ b ≤ v ∧ v < vN ∧ ∃ k : ℕ, v = b + G * k :=
  blockVecsF_mem hG _ _ le_rfl

lemma blockVecs_nil_of_nonpos {G vN b : ℤ} (hb : 0 ≤ b) (hvN : vN ≤ 0) :
    blockVecs G vN b = [] := by
  unfold blockVecs
  have h0 : (vN - b).toNat = 0 := by omega
  rw [h0]
  rfl

/-- With a non-positive `vectorN` the grid performs no replica store. -/
lemma engineWriteList_nil {G vN : ℤ} (hvN : vN ≤ 0) : engineWriteList G vN = [] := by
  unfold engineWriteList
  have h : ∀ l : List ℕ,
      l.flatMap (fun b => (blockVecs G vN (b : ℤ)).flatMap (fun vec =>
        (List.range 3).map (fun y => (vec + 256 * (y : ℤ), vec)))) = [] := by
    intro l
    induction l with
    | nil => rfl
    | cons b t ih =>
        rw [List.flatMap_cons, ih, blockVecs_nil_of_nonpos (by positivity) hvN]
        rfl
  exact h _

/-- Rewriting the fold of replica stores from the `T`-thread per-vector
values to the functional per-vector values. -/
lemma engine_foldl_congr (ops : Ops α) {T : ℕ} (hT : 1 ≤ T) (A B : ℤ → α) (eN : ℤ)
    (row : ℕ → α) :
    ∀ (l : List (ℤ × ℤ)) (C : ℤ → α),
      l.foldl (fun C w => updZ C w.1 (scalarProdResultPar ops T A B eN w.2 row)) C
        = l.foldl (fun C w => updZ C w.1 (scalarProdResult ops A B eN w.2)) C := by
  intro l
  induction l with
  | nil => intro C; rfl
  | cons w t ih =>
      intro C
      simp only [List.foldl_cons, scalarProdResultPar_eq ops hT A B eN w.2 row]
      exact ih _

/-- Every replica store of the grid has shape
`(slot, vec) = (vec + 256*z, vec)` with `z ∈ {0,1,2}` and `vec ∈ [0, vN)`. -/
lemma engineWriteList_shape {G vN : ℤ} (hG : 1 ≤ G) :
    ∀ w ∈ engineWriteList G vN,
      ∃ z : ℤ, 0 ≤ z ∧ z < 3 ∧ w.1 = w.2 + 256 * z ∧ 0 ≤ w.2 ∧ w.2 < vN := by
  intro w hw
  unfold engineWriteList at hw
  obtain ⟨b, hb, hw⟩ := List.mem_flatMap.1 hw
  obtain ⟨v, hv, hw⟩ := List.mem_flatMap.1 hw
  obtain ⟨z, hz2, hweq⟩ := List.mem_map.1 hw
  have hm := (blockVecs_mem hG).1 hv
  have hb0 : (0 : ℤ) ≤ (b : ℤ) := by positivity
  have hz3 : z = 0 ∨ z = 1 ∨ z = 2 := by simpa using hz2
  refine ⟨z, by omega, by omega, ?_, ?_, ?_⟩
  · rw [← hweq]
  · rw [← hweq]
    simpa using by omega
  · rw [← hweq]
    simpa using hm.2.1

/-- For `vN ≤ 256` every slot determines its `(vec, z)` decomposition
uniquely, so any two replica stores of the grid commute: either their
targets differ, or they are the same store. -/
lemma engine_store_comm (v : ℤ → α) {G vN : ℤ} (hG : 1 ≤ G) (hvN : vN ≤ 256) :
    ∀ w1 ∈ engineWriteList G vN, ∀ w2 ∈ engineWriteList G vN, ∀ C : ℤ → α,
      updZ (updZ C w1.1 (v w1.2)) w2.1 (v w2.2)
        = updZ (updZ C w2.1 (v w2.2)) w1.1 (v w1.2) := by
  intro w1 h1 w2 h2 C
  obtain ⟨z1, hz10, hz13, hs1, hv10, hv1N⟩ := engineWriteList_shape hG w1 h1
  obtain ⟨z2, hz20, hz23, hs2, hv20, hv2N⟩ := engineWriteList_shape hG w2 h2
  by_cases hss : w1.1 = w2.1
  · have hvv : w1.2 = w2.2 := by omega
    funext j
    simp [updZ, hss, hvv]
  · funext j
    unfold updZ
    by_cases hj1 : j = w1.1 <;> by_cases hj2 : j = w2.1 <;> simp_all

/-- For `vN ≤ 256` the final buffer does not depend on the serialization
order of the grid's replica stores: any permutation of the write list folds
to the same function. -/
lemma engine_foldl_perm (v : ℤ → α) {G vN : ℤ} (hG : 1 ≤ G) (hvN : vN ≤ 256)
    {ws : List (ℤ × ℤ)} (hperm : ws.Perm (engineWriteList G vN)) (C : ℤ → α) :
    ws.foldl (fun C w => updZ C w.1 (v w.2)) C
      = (engineWriteList G vN).foldl (fun C w => updZ C w.1 (v w.2)) C :=
  hperm.foldl_eq'
    (fun x hx y hy z =>
      engine_store_comm v hG hvN x (hperm.subset hx) y (hperm.subset hy) z) C

/-! ## Engine claims -/

/-- C5: for every input and configuration, the final content of output slot
0 is the sentinel `1`, and the guard of the sentinel store holds for exactly
one designated lane — the first thread (`threadIdx.x = 0`, `threadIdx.y = 0`)
of the first group (`blockIdx.x = 0`). -/
theorem engine_slot0_sentinel (ops : Ops α) (T : ℕ) (G : ℤ) (A B : ℤ → α)
    (vN eN : ℤ) (row : ℕ → α) (C0 : ℤ → α) :
    engineRunPar ops T G A B vN eN row C0 0 = ops.one ∧
    (∀ tx ty bx : ℕ, sentinelCond tx ty bx = true ↔ (tx = 0 ∧ ty = 0 ∧ bx = 0)) := by
  constructor
  · simp [engineRunPar, updZ]
  · intro tx ty bx
    simp [sentinelCond, Bool.and_eq_true, beq_iff_eq, and_assoc]

/-- C7 (amended): for `vectorN ≤ 256` — the regime in which all replica
store targets `vec + 256*y` of the grid are pairwise distinct — the engine
is deterministic: two runs on identical inputs `A`, `B`, identical
`vectorN`, `elementN` and the same group count `G` produce bit-identical
output buffers (slot-0 sentinel included), for any thread counts
`T, Tb ≥ 1`, any (uninitialized) initial contents of the shared accumulator
rows, and any serialization order of the grid's stores (any permutation
`ws` of the write list, since the program orders nothing between blocks).
For `vectorN > 256` distinct blocks race on a common slot and the output is
not determined by the program — see the counterexample. -/
theorem engine_deterministic_bounded (ops : Ops α) (G : ℤ) (A B : ℤ → α) (vN eN : ℤ)
    (C0 : ℤ → α) {T Tb : ℕ} (row rowb : ℕ → α) (ws : List (ℤ × ℤ))
    (hT : 1 ≤ T) (hTb : 1 ≤ Tb) (hG : 1 ≤ G) (hvN : vN ≤ 256)
    (hperm : ws.Perm (engineWriteList G vN)) :
    engineRunParOrd ops T A B eN row ws C0 = engineRunPar ops Tb G A B vN eN rowb C0 := by
  unfold engineRunParOrd engineRunPar
  rw [engine_foldl_congr ops hT A B eN row, engine_foldl_congr ops hTb A B eN rowb,
    engine_foldl_perm (scalarProdResult ops A B eN) hG hvN hperm C0]

theorem engine_deterministic_bounded_witness :
    engineRunParOrd intOps 1 (fun _ => 0) (fun _ => 0) 1 (fun _ => 0)
        ((engineWriteList 1 1).reverse) (fun _ => 0)
      = engineRunPar intOps 2 1 (fun _ => 0) (fun _ => 0) 1 1 (fun _ => 5) (fun _ => 0) :=
  engine_deterministic_bounded intOps 1 (fun _ => 0) (fun _ => 0) 1 1 (fun _ => 0)
    (fun _ => 0) (fun _ => 5) ((engineWriteList 1 1).reverse)
    (by omega) (by omega) (by omega) (by omega) (List.reverse_perm _)

set_option maxRecDepth 100000 in
set_option maxHeartbeats 2000000 in
/-- C7 counterexample: with `vectorN = 257 > 256` and `gridDim = 3` the same
program run admits serializations with different outcomes, so the
unrestricted determinism claim fails.  Block 0 stores vector 0's replica-1
result and block 1 stores vector 256's replica-0 result to the same slot
`256` — both stores are in the grid's write set — and with
`A = B = id`, `elementN = 1` those values are `0` and `65536`.  Applying the
stores in block-major order versus the reversed order (both admissible,
since the program orders nothing between blocks) leaves different values in
slot `256`. -/
theorem engine_deterministic_cex :
    ((256 : ℤ), (0 : ℤ)) ∈ engineWriteList 3 257 ∧
    ((256 : ℤ), (256 : ℤ)) ∈ engineWriteList 3 257 ∧
    ((engineWriteList 3 257).reverse).Perm (engineWriteList 3 257) ∧
    ¬ (engineRunParOrd intOps 1 (fun p => p) (fun p => p) 1 (fun _ => 0)
          (engineWriteList 3 257) (fun _ => 0) 256
        = engineRunParOrd intOps 1 (fun p => p) (fun p => p) 1 (fun _ => 0)
            ((engineWriteList 3 257).reverse) (fun _ => 0) 256) := by
  refine ⟨by decide, by decide, List.reverse_perm _, ?_⟩
  unfold engineRunParOrd
  simp only [engine_foldl_congr intOps (le_refl 1) (fun p => p) (fun p => p) 1 (fun _ => 0)]
  decide

/-- C9: for a non-positive `vectorN` the engine performs no store other than
the slot-0 sentinel: slot 0 becomes `1` and every other slot keeps its prior
value, with no fault raised (the run is total). -/
theorem engine_nonpositive_vectorN_frame (ops : Ops α) (T : ℕ) (G : ℤ) (A B : ℤ → α)
    (vN eN : ℤ) (row : ℕ → α) (C0 : ℤ → α) (j : ℤ)
    (hvN : vN ≤ 0) (hj : j ≠ 0) :
    engineRunPar ops T G A B vN eN row C0 0 = ops.one ∧
    engineRunPar ops T G A B vN eN row C0 j = C0 j := by
  unfold engineRunPar
  rw [engineWriteList_nil hvN]
  exact ⟨by simp [updZ], by simp [updZ, hj]⟩

theorem engine_nonpositive_vectorN_frame_witness :
    engineRunPar intOps 1 1 (fun _ => 2) (fun _ => 3) 0 4 (fun _ => 0) (fun _ => 9) 0
      = intOps.one ∧
    engineRunPar intOps 1 1 (fun _ => 2) (fun _ => 3) 0 4 (fun _ => 0) (fun _ => 9) 5
      = (fun _ => (9 : ℤ)) 5 :=
  engine_nonpositive_vectorN_frame intOps 1 1 (fun _ => 2) (fun _ => 3) 0 4
    (fun _ => 0) (fun _ => 9) 5 (by omega) (by omega)

/-- C6 (amended): for every replica row `r ∈ {0,1,2}` and every vector
`v ∈ [0, vectorN)`, the engine stores replica `r`'s result for `v` into
result-buffer slot `v + 256*r` — the replica offset is the hard-coded
constant `256`, not `vectorN`; it coincides with `v + r*size`,
`size = vectorN`, exactly when `vectorN = 256` — and every replica store of
the grid is of this shape with `v ∈ [0, vectorN)`. -/
theorem engine_replica_layout_256 {G vN : ℤ} (vec y : ℤ)
    (hG : 1 ≤ G) (hv0 : 0 ≤ vec) (hvN : vec < vN) (hy0 : 0 ≤ y) (hy : y < 3) :
    (vec + 256 * y, vec) ∈ engineWriteList G vN ∧
    (∀ w ∈ engineWriteList G vN,
      ∃ z : ℤ, 0 ≤ z ∧ z < 3 ∧ w.1 = w.2 + 256 * z ∧ 0 ≤ w.2 ∧ w.2 < vN) := by
  constructor
  · unfold engineWriteList
    have hGne : G ≠ 0 := by omega
    have h1 : 0 ≤ vec % G := Int.emod_nonneg vec hGne
    have h2 : vec % G < G := Int.emod_lt_of_pos vec (by omega)
    refine List.mem_flatMap.2 ⟨(vec % G).toNat, List.mem_range.2 (by omega), ?_⟩
    refine List.mem_flatMap.2 ⟨vec, ?_, ?_⟩
    · have hcast : (((vec % G).toNat : ℤ)) = vec % G := Int.toNat_of_nonneg h1
      rw [blockVecs_mem hG, hcast]
      have hdiv : 0 ≤ vec / G := Int.ediv_nonneg hv0 (by omega)
      have hrepr : vec % G + G * (vec / G) = vec := Int.emod_add_ediv vec G
      have hGdiv : 0 ≤ G * (vec / G) := mul_nonneg (by omega) hdiv
      refine ⟨by omega, hvN, (vec / G).toNat, ?_⟩
      rw [Int.toNat_of_nonneg hdiv]
      omega
    · exact List.mem_map_of_mem _ (by simp; omega)
  · exact engineWriteList_shape hG

theorem engine_replica_layout_256_witness :
    ((0 : ℤ) + 256 * (1 : ℤ), (0 : ℤ)) ∈ engineWriteList 1 1 :=
  (engine_replica_layout_256 0 1 (by omega) (by omega) (by omega) (by omega) (by omega)).1

/-- C6 counterexample: with `vectorN = 1` (so `size = 1`), the grid stores
replica 1's result for vector 0 to slot `256`, not to slot
`0 + 1*size = 1` as the claim states; no store targets slot 1 at all. -/
theorem engine_replica_layout_cex :
    ((256 : ℤ), (0 : ℤ)) ∈ engineWriteList 1 1 ∧
    ((1 : ℤ), (0 : ℤ)) ∉ engineWriteList 1 1 ∧
    engineWriteList 1 1 = [(0, 0), (256, 0), (512, 0)] := by
  decide

/-- C1 (amended): for every vector `v` with `0 < v < vectorN` and every
positive `elementN`, provided the 24-bit index multiply is exact at
`(elementN, v)` — i.e. `__mul24(elementN, v) = elementN * v`, which holds
whenever `elementN` and `v` are below `2^23` and their product fits a signed
32-bit word — the value the engine computes and stores for `v` (for any
thread count `T ≥ 1` and any initial shared-row contents) is bit-identical
to the sequential reference that sums with the same strided-then-tree order:
each of the 1024 lanes first folds the products at positions
`lane, lane + 1024, ...` of the vector, and lanes are then combined by the
binary tree reduction with strides `512, ..., 1`. -/
theorem dotEngine_matches_reference (ops : Ops α) {T : ℕ} (A B : ℤ → α)
    (vN eN vec : ℤ) (row : ℕ → α) (hT : 1 ≤ T)
    (hv0 : 0 < vec) (hvN : vec < vN) (heN : 0 < eN)
    (hmul : mul24 eN vec = eN * vec) :
    scalarProdResultPar ops T A B eN vec row = referenceDot ops A B eN vec := by
  rw [scalarProdResultPar_eq ops hT A B eN vec row]
  unfold scalarProdResult referenceDot
  rw [hmul]

theorem dotEngine_matches_reference_witness :
    scalarProdResultPar intOps 1 (fun _ => 2) (fun _ => 3) 1 1 (fun _ => 0)
      = referenceDot intOps (fun _ => 2) (fun _ => 3) 1 1 :=
  dotEngine_matches_reference intOps (fun _ => 2) (fun _ => 3) 2 1 1 (fun _ => 0)
    (by omega) (by omega) (by omega) (by omega) (by decide)

/-- C1 counterexample: the claim as stated (no restriction beyond
`elementN > 0` and `0 < v < vectorN`) fails at `elementN = 1`,
`v = 2^24 < vectorN = 2^24 + 1`: `__mul24(1, 2^24)` truncates the low 24
bits of `2^24` to `0`, so the engine reads vector 0's elements and returns
`A[0]*B[0] = 1`, while the reference reading position `v*elementN = 2^24`
returns `25`. -/
theorem dotEngine_reference_mismatch_cex :
    (0 : ℤ) < 2 ^ 24 ∧ (2 ^ 24 : ℤ) < 2 ^ 24 + 1 ∧ (0 : ℤ) < 1 ∧
    ¬ (scalarProdResultPar intOps 1 (fun p => if p = 0 then (1 : ℤ) else 5)
         (fun p => if p = 0 then (1 : ℤ) else 5) 1 (2 ^ 24) (fun _ => 0)
       = referenceDot intOps (fun p => if p = 0 then (1 : ℤ) else 5)
           (fun p => if p = 0 then (1 : ℤ) else 5) 1 (2 ^ 24)) := by
  refine ⟨by norm_num, by norm_num, by norm_num, ?_⟩
  rw [scalarProdResultPar_eq intOps (by omega) _ _ 1 (2 ^ 24) (fun _ => 0)]
  decide
